import Mathlib

/-!
Shallow embedding of the kernel-object overlay engine in
`volatility/plugins/overlays/windows/windows.py`: the `_MMVAD` tree walker,
the `_HANDLE_TABLE` multi-level walker, `_TOKEN` validation and SID
decoding, `_UNICODE_STRING` decoding, and the `_MMVAD` tag dispatch,
together with theorems settling the specification claims about them.
-/

/-! ## `_UNICODE_STRING` -/

/-- The `_UNICODE_STRING` view at the granularity this file inspects it: the value of
its `Length` field, the truth value of its `Buffer` pointer (the Python
`bool(self.Buffer)`; pointer truthiness is decided by the `obj` module
outside this file, so it is abstracted into a boolean field), and the
decoding function, where `bufferRead n` stands for
`self.Buffer.dereference_as('UnicodeString', length = n).v()`. -/
structure UnicodeStringView where
  Length : Nat
  bufferTruthy : Bool
  bufferRead : Nat → String

/-- Python `_UNICODE_STRING.v`: decode `Length` bytes from the buffer when
`length > 0 and length <= 1024`, otherwise return the empty string without
touching the buffer. -/
def UNICODE_STRING.v (u : UnicodeStringView) : String :=
  if 0 < u.Length ∧ u.Length ≤ 1024 then u.bufferRead u.Length else ""

/-- Python `_UNICODE_STRING.__nonzero__`: `return bool(self.Buffer)`. -/
def UNICODE_STRING.nonzero (u : UnicodeStringView) : Bool :=
  u.bufferTruthy

/-! ## `_TOKEN`: validation and SID decoding -/

/-- A `_SID` structure together with the fields `get_sids` reads from it:
`Revision`, the bytes of `IdentifierAuthority.Value`, and the
`SubAuthority` array (its length driven by `SubAuthorityCount` via the
overlay). -/
structure SIDView where
  Revision : Nat
  IdentifierAuthorityValue : List Nat
  SubAuthority : List Nat

/-- The string `get_sids` yields for one `_SID`:
`"S-" + "-".join(str(i) for i in (sid.Revision, id_auth) + tuple(sid.SubAuthority))`,
where `id_auth` is left holding the last element of
`sid.IdentifierAuthority.Value` by the `for` loop (the array is a fixed
6-byte array in real profiles; the default covers the empty case). -/
def sidToString (s : SIDView) : String :=
  "S-" ++ String.intercalate "-"
    ((s.Revision :: s.IdentifierAuthorityValue.getLastD 0 :: s.SubAuthority).map toString)

/-- The `_TOKEN` view at the granularity `is_valid` and `get_sids` inspect it.
`baseValid` is `obj.CType.is_valid(self)` (readability of the view, decided
outside this file); `sids` are the `_SID` structures reached by
dereferencing each element of `UserAndGroups`. -/
structure TokenView where
  baseValid : Bool
  TokenInUse : Nat
  SessionId : Nat
  UserAndGroupCount : Nat
  sids : List SIDView

/-- Python `_TOKEN.is_valid`:
`obj.CType.is_valid(self) and self.TokenInUse in (0, 1) and self.SessionId < 10`. -/
def TOKEN.is_valid (t : TokenView) : Bool :=
  t.baseValid && (t.TokenInUse == 0 || t.TokenInUse == 1) && decide (t.SessionId < 10)

/-- Python `_TOKEN.get_sids`: if `UserAndGroupCount < 0xFFFF`, yield the rendered
SID string of every user/group entry; otherwise yield nothing. -/
def TOKEN.get_sids (t : TokenView) : List String :=
  if t.UserAndGroupCount < 0xFFFF then t.sids.map sidToString else []

/-! ## `_MMVAD` tag dispatch -/

/-- Python `_MMVAD.tag_map`: the fixed table mapping tag string to concrete type. -/
def MMVAD.tag_map : List (String × String) :=
  [("Vadl", "_MMVAD_LONG"), ("VadS", "_MMVAD_SHORT"), ("Vad ", "_MMVAD_LONG"),
   ("VadF", "_MMVAD_SHORT"), ("Vadm", "_MMVAD_LONG")]

/-- A generic `_MMVAD` view: the tag string read through the overlay field
`'Tag': [-4, ['String', dict(length = 4)]]` and the view's `obj_offset`. -/
structure MMVadView where
  Tag : String
  offset : Nat

/-- The overlay places the `Tag` field 4 bytes before the structure start. -/
def MMVAD.TagFieldOffset : Int := -4

/-- The overlay reads the `Tag` field as a string of length 4. -/
def MMVAD.TagFieldLength : Nat := 4

/-- Python `_MMVAD.dereference`: look the tag up in `tag_map`; on a hit, return a
view of the mapped concrete type at the same offset
(`profile.Object(theType = real_type, offset = self.obj_offset, ...)`);
on a miss, return `None`. -/
def MMVAD.dereference (v : MMVadView) : Option (String × Nat) :=
  match List.lookup v.Tag MMVAD.tag_map with
  | none => none
  | some ty => some (ty, v.offset)

/-! ## `_MMVAD.traverse` -/

/-- A `_MMVAD` node as the tree walker reads it from memory: the values of
its `LeftChild` and `RightChild` pointer fields. -/
structure MNode where
  left : Nat
  right : Nat
deriving DecidableEq

/-- The memory image seen by the VAD tree walker: an association list from
absolute offset to the node stored there.  Modelled from the spec: a child
pointer whose target is absent (null or unreadable memory) dereferences to
an explicit absent value whose traversal yields nothing — such a pointer is
an offset with no entry here; the pointer machinery (`obj.Pointer`,
`obj.NoneObject`) lives outside this file. -/
abbrev VadMem := List (Nat × MNode)

/-- Dereference a child pointer: the node at `off`, if readable. -/
def lookupNode (mem : VadMem) (off : Nat) : Option MNode :=
  List.lookup off mem

/-- Python `_MMVAD.traverse(visited)`, with explicit fuel standing for the
unbounded generator recursion.  Returns the yielded offsets in order and
the final visited set, or `none` when the fuel runs out.

Timing of the Python `visited` mutations: each recursive loop
`for c in child.traverse(visited = visited): visited.add(c.obj_offset); yield c`
adds an offset right after its node's first yield and before that node
descends into its own children, which is `insert off visited` at the start
of the child call here — but only for nodes reached *as a child*
(`asChild = true`); the offset of the node the traversal was started on is
never added by anyone, hence the `asChild = false` top-level call. -/
def traverseFuel (mem : VadMem) : Nat → Nat → Finset Nat → Bool → Option (List Nat × Finset Nat)
  | 0, _, _, _ => none
  | fuel + 1, off, visited, asChild =>
    match lookupNode mem off with
    | none => some ([], visited)
    | some node =>
      if off ∈ visited then some ([], visited)
      else
        (traverseFuel mem fuel node.left
            (if asChild then insert off visited else visited) true).bind
          (fun pl =>
            (traverseFuel mem fuel node.right pl.2 true).bind
              (fun pr => some (off :: pl.1 ++ pr.1, pr.2)))

/-- The offsets at which the memory image holds a node. -/
def memDom (mem : VadMem) : Finset Nat :=
  (mem.map Prod.fst).toFinset

/-- Fuel that always suffices for `traverseFuel` (proved below). -/
def traverseBound (mem : VadMem) : Nat :=
  2 * (memDom mem).card + 2

/-- The sequence of offsets `_MMVAD.traverse()` yields when started at
`off` with a fresh empty visited set. -/
def MMVAD.traverse (mem : VadMem) (off : Nat) : List Nat :=
  ((traverseFuel mem (traverseBound mem) off ∅ false).map Prod.fst).getD []

/-- Well-formed VAD trees, used to state the claim about cycle-free
inputs: a binary tree carrying the absolute offset of each node.  `leaf`
stands for a null child pointer, encoded as offset `0` (kept out of the
node offsets by hypothesis). -/
inductive VadTree where
  | leaf : VadTree
  | node (off : Nat) (l r : VadTree) : VadTree

/-- The offset a child pointer to this subtree stores. -/
def VadTree.rootOff : VadTree → Nat
  | .leaf => 0
  | .node off _ _ => off

/-- Self-then-left-subtree-then-right-subtree listing of the node offsets. -/
def VadTree.preorder : VadTree → List Nat
  | .leaf => []
  | .node off l r => off :: (l.preorder ++ r.preorder)

/-- Number of nodes. -/
def VadTree.size : VadTree → Nat
  | .leaf => 0
  | .node _ l r => l.size + r.size + 1

/-- Lay the tree out as a memory image. -/
def VadTree.toMem : VadTree → VadMem
  | .leaf => []
  | .node off l r => (off, ⟨VadTree.rootOff l, VadTree.rootOff r⟩) :: (l.toMem ++ r.toMem)

/-- Every node of the tree is found, with its correct children, by pointer
dereference in the memory image `M`. -/
def treeInMem (M : VadMem) : VadTree → Prop
  | .leaf => True
  | .node off l r =>
      lookupNode M off = some ⟨VadTree.rootOff l, VadTree.rootOff r⟩ ∧ treeInMem M l ∧ treeInMem M r

/-- A one-node memory whose node's `LeftChild` points back to itself. -/
def cyclicVadMem : VadMem := [(1, ⟨1, 0⟩)]

/-- A small well-formed tree: root 1, left child 2, right child 3. -/
def sampleTree : VadTree := .node 1 (.node 2 .leaf .leaf) (.node 3 .leaf .leaf)

/-! ## `_HANDLE_TABLE` -/

/-- The two object-header layouts `_make_handle_array` distinguishes:
post-Vista headers expose `TypeIndex` (the `try` branch), older headers
raise `AttributeError` on it and `Type.Name` — a `_UNICODE_STRING` — is
tested for truth instead. -/
inductive ObjHeaderData where
  | newHeader (typeIndex : Nat)
  | oldHeader (typeName : UnicodeStringView)

/-- The memory image and profile data the handle-table walker consults.
`addrSize` is `profile.get_obj_size("address")`, `entrySize` is
`profile.get_obj_size("_HANDLE_TABLE_ENTRY")`.  `slot off` is the
pointer-sized slot at absolute offset `off` in a level `> 0` table:
`none` iff the slot's `is_valid()` fails, otherwise the stored value.
`entryValid off` is `_HANDLE_TABLE_ENTRY.is_valid()` at offset `off`, and
`item off` is the result of `get_item` on that entry (`none` iff
`item == None`, i.e. the `Object` reference did not resolve). -/
structure HandleMem where
  addrSize : Nat
  entrySize : Nat
  slot : Nat → Option Nat
  entryValid : Nat → Bool
  item : Nat → Option ObjHeaderData

/-- Value `0x1000`, the page size both per-level counts are computed from. -/
def PAGE_SIZE : Nat := 0x1000

/-- Indices of the `_HANDLE_TABLE_ENTRY` slots the level-0 loop reaches:
the array holds `0x1000 / entrySize` entries and the loop breaks at the
first entry whose `is_valid()` fails. -/
def bottomEntries (M : HandleMem) (offset : Nat) : List Nat :=
  (List.range (PAGE_SIZE / M.entrySize)).takeWhile
    (fun i => M.entryValid (offset + i * M.entrySize))

/-- Formula `handle_value = ((entry.obj_offset - offset) / (handle_entry_size / handle_multiplier)) + handle_level_base`
with `handle_multiplier = 4` and `handle_level_base = depth * count * 4`,
for the entry at index `i` (so `entry.obj_offset = offset + i * entrySize`). -/
def handleValue (M : HandleMem) (offset depth i : Nat) : Nat :=
  ((offset + i * M.entrySize) - offset) / (M.entrySize / 4) +
    depth * (PAGE_SIZE / M.entrySize) * 4

/-- The yield filter at the bottom of `_make_handle_array`:
`if item.TypeIndex != 0x0: yield item` and, on `AttributeError`,
`if item.Type.Name: yield item`. -/
def passesFilter : ObjHeaderData → Bool
  | .newHeader ti => ti != 0
  | .oldHeader nm => UNICODE_STRING.nonzero nm

/-- Values stored in the pointer slots a level `> 0` loop recurses into, in
order: the array holds `0x1000 / addrSize` slots and the loop breaks at
the first slot whose `is_valid()` fails. -/
def scanSlots (M : HandleMem) (offset : Nat) : List Nat :=
  ((List.range (PAGE_SIZE / M.addrSize)).takeWhile
      (fun i => (M.slot (offset + i * M.addrSize)).isSome)).filterMap
    (fun i => M.slot (offset + i * M.addrSize))

/-- The level-0 loop body for the entry at index `i`: resolve the item via
`get_item`; skip it (`continue`) when `item == None` or when it fails the
yield filter, otherwise yield it paired with its reconstructed handle
value. -/
def bottomItem (M : HandleMem) (offset depth i : Nat) : Option (Nat × ObjHeaderData) :=
  match M.item (offset + i * M.entrySize) with
  | none => none
  | some it => if passesFilter it then some (handleValue M offset depth i, it) else none

/-- Python `_HANDLE_TABLE._make_handle_array(offset, level, depth)`: at level
`> 0`, recurse into each scanned slot, incrementing `depth` once per slot
processed (so the `j`-th scanned slot is entered with `depth + j`); at
level 0, yield `(handle_value, item)` for each scanned entry whose item
resolves and passes the filter (`continue` on the others). -/
def makeHandleArray (M : HandleMem) : Nat → Nat → Nat → List (Nat × ObjHeaderData)
  | 0, offset, depth =>
    (bottomEntries M offset).filterMap (bottomItem M offset depth)
  | level + 1, offset, depth =>
    ((scanSlots M offset).enum).flatMap
      (fun jv => makeHandleArray M level jv.2 (depth + jv.1))

/-- Python `_HANDLE_TABLE.handles()`: split `TableCode` into the level count (low
3 bits, `LEVEL_MASK = 7`) and the base offset (`TableCode & ~LEVEL_MASK`,
which on naturals is `tableCode - tableCode % 8`), then walk. -/
def HANDLE_TABLE.handles (M : HandleMem) (tableCode : Nat) : List (Nat × ObjHeaderData) :=
  makeHandleArray M (tableCode % 8) (tableCode - tableCode % 8) 0

/-- Python `_EPROCESS.ObReferenceObjectByHandle(handle)`: linear scan of
`handles()` for the first object whose reconstructed `HandleValue`
matches; `None` (absent) when no handle matches. -/
def ObReferenceObjectByHandle (M : HandleMem) (tableCode handle : Nat) : Option ObjHeaderData :=
  Option.map Prod.snd ((HANDLE_TABLE.handles M tableCode).find? (fun p => p.1 == handle))

/-! ## Concrete memory images used as witnesses and counterexamples -/

/-- A two-level handle table (`TableCode = 0x10002`): the top table at
`0x10000` points to mid tables `0x20000` and `0x30000`; the first mid
table points to bottom tables `0x40000` (depth 0) and `0x50000` (depth 1);
the second mid table is entered with depth 1 and points to bottom table
`0x60000` (depth 1 again).  Sizes: `addrSize = entrySize = 2048`, so every
per-level count is 2. -/
def twoLevelMem : HandleMem :=
  ⟨2048, 2048,
   fun off =>
     if off = 0x10000 then some 0x20000
     else if off = 0x10800 then some 0x30000
     else if off = 0x20000 then some 0x40000
     else if off = 0x20800 then some 0x50000
     else if off = 0x30000 then some 0x60000
     else none,
   fun off => off == 0x40000 || off == 0x50000 || off == 0x60000,
   fun off =>
     if off == 0x40000 || off == 0x50000 || off == 0x60000 then some (.newHeader 1) else none⟩

/-- A one-level handle table (`TableCode = 9`, base offset 8): two bottom
tables at `0x40000` (two valid entries) and `0x50000` (one valid entry). -/
def oneLevelMem : HandleMem :=
  ⟨2048, 2048,
   fun off =>
     if off = 8 then some 0x40000
     else if off = 0x808 then some 0x50000
     else none,
   fun off => off == 0x40000 || off == 0x40800 || off == 0x50000,
   fun off =>
     if off == 0x40000 then some (.newHeader 2)
     else if off == 0x40800 then some (.newHeader 3)
     else if off == 0x50000 then some (.newHeader 5)
     else none⟩

/-- A level-0 handle table (`TableCode = 0`) with two densely packed valid
entries at offsets 0 and 2048 (`entrySize = 2048`, so the per-page count
is exactly 2). -/
def levelZeroMem : HandleMem :=
  ⟨2048, 2048,
   fun _ => none,
   fun off => off == 0 || off == 2048,
   fun off =>
     if off == 0 then some (.newHeader 7)
     else if off == 2048 then some (.newHeader 9)
     else none⟩

/-- A level-0 handle table (`TableCode = 0`, `entrySize = 1024`, count 4)
whose entry 1 fails `is_valid()` while entries 0 and 2 would pass and
would resolve to filter-passing items. -/
def gapMem : HandleMem :=
  ⟨1024, 1024,
   fun _ => none,
   fun off => off == 0 || off == 2048,
   fun off =>
     if off == 0 then some (.newHeader 3)
     else if off == 2048 then some (.newHeader 4)
     else none⟩

/-- A `Type.Name` whose `Buffer` pointer is truthy while `Length = 0`, so
the decoded value is the empty string. -/
def emptyTruthyName : UnicodeStringView :=
  ⟨0, true, fun _ => "unused"⟩

/-- A level-0 handle table (`TableCode = 0`, `entrySize = 4096`, count 1)
whose single entry resolves to an old-layout header whose `Type.Name` has
a truthy buffer but decodes to the empty string. -/
def oldHeaderMem : HandleMem :=
  ⟨4096, 4096,
   fun _ => none,
   fun off => off == 0,
   fun off => if off == 0 then some (.oldHeader emptyTruthyName) else none⟩

/-! ## Lemmas about `List.lookup` on association lists -/

theorem lookup_cons_ne {α β : Type} [BEq α] [LawfulBEq α] (k a : α) (b : β)
    (l : List (α × β)) (h : a ≠ k) :
    List.lookup a ((k, b) :: l) = List.lookup a l := by
  rw [List.lookup_cons]
  have hb : (a == k) = false := beq_false_of_ne h
  rw [hb]

theorem lookup_append_some {β : Type} (a : Nat) (l₁ l₂ : List (Nat × β)) (b : β)
    (h : List.lookup a l₁ = some b) : List.lookup a (l₁ ++ l₂) = some b := by
  induction l₁ with
  | nil => simp [List.lookup] at h
  | cons p rest ih =>
    rw [show p = (p.1, p.2) from rfl] at h ⊢
    rw [List.lookup_cons] at h
    rw [List.cons_append, List.lookup_cons]
    cases hk : (a == p.1) with
    | true => rw [hk] at h; exact h
    | false => rw [hk] at h; exact ih h

theorem lookup_append_none {β : Type} (a : Nat) (l₁ l₂ : List (Nat × β))
    (h : List.lookup a l₁ = none) : List.lookup a (l₁ ++ l₂) = List.lookup a l₂ := by
  induction l₁ with
  | nil => simp
  | cons p rest ih =>
    rw [show p = (p.1, p.2) from rfl] at h ⊢
    rw [List.lookup_cons] at h
    rw [List.cons_append, List.lookup_cons]
    cases hk : (a == p.1) with
    | true => rw [hk] at h; exact absurd h (by simp)
    | false => rw [hk] at h; exact ih h

theorem lookupNode_mem_dom (mem : VadMem) (off : Nat) (n : MNode)
    (h : lookupNode mem off = some n) : off ∈ memDom mem := by
  induction mem with
  | nil => simp [lookupNode] at h
  | cons p rest ih =>
    simp only [memDom, List.map_cons, List.toFinset_cons, Finset.mem_insert]
    rw [lookupNode, show p = (p.1, p.2) from rfl, List.lookup_cons] at h
    cases hk : (off == p.1) with
    | true => exact Or.inl (by simpa using hk)
    | false =>
      rw [hk] at h
      exact Or.inr (by simpa [memDom] using ih h)

/-! ## Lemmas about `traverseFuel` -/

theorem traverseFuel_subset (mem : VadMem) :
    ∀ (fuel off : Nat) (v : Finset Nat) (asChild : Bool) (out : List Nat) (v' : Finset Nat),
      traverseFuel mem fuel off v asChild = some (out, v') → v ⊆ v' := by
  intro fuel
  induction fuel with
  | zero => intro off v asChild out v' h; simp [traverseFuel] at h
  | succ fuel ih =>
    intro off v asChild out v' h
    rw [traverseFuel] at h
    cases hl : lookupNode mem off with
    | none =>
      rw [hl] at h
      simp only [Option.some.injEq, Prod.mk.injEq] at h
      rw [← h.2]
    | some node =>
      rw [hl] at h
      simp only at h
      by_cases hv : off ∈ v
      · rw [if_pos hv] at h
        simp only [Option.some.injEq, Prod.mk.injEq] at h
        rw [← h.2]
      · rw [if_neg hv] at h
        rcases Option.bind_eq_some.mp h with ⟨⟨outL, v1⟩, h1, h2⟩
        rcases Option.bind_eq_some.mp h2 with ⟨⟨outR, v2⟩, h3, h4⟩
        simp only [Option.some.injEq, Prod.mk.injEq] at h4
        have s1 : v ⊆ (if asChild then insert off v else v) := by
          cases asChild <;> simp [Finset.subset_insert]
        have s2 := ih node.left (if asChild then insert off v else v) true outL v1 h1
        have s3 := ih node.right v1 true outR v2 h3
        rw [← h4.2]
        exact fun a ha => s3 (s2 (s1 ha))

theorem traverseFuel_mono (mem : VadMem) :
    ∀ (fuel fuel' off : Nat) (v : Finset Nat) (asChild : Bool) (r : List Nat × Finset Nat),
      fuel ≤ fuel' → traverseFuel mem fuel off v asChild = some r →
      traverseFuel mem fuel' off v asChild = some r := by
  intro fuel
  induction fuel with
  | zero => intro fuel' off v asChild r _ h; simp [traverseFuel] at h
  | succ fuel ih =>
    intro fuel' off v asChild r hle h
    obtain ⟨fuel'', rfl⟩ : ∃ k, fuel' = k + 1 := ⟨fuel' - 1, by omega⟩
    rw [traverseFuel] at h ⊢
    cases hl : lookupNode mem off with
    | none => rw [hl] at h; exact h
    | some node =>
      rw [hl] at h
      simp only at h ⊢
      by_cases hv : off ∈ v
      · rw [if_pos hv] at h; rw [if_pos hv]; exact h
      · rw [if_neg hv] at h
        rw [if_neg hv]
        rcases Option.bind_eq_some.mp h with ⟨pl, h1, h2⟩
        rcases Option.bind_eq_some.mp h2 with ⟨pr, h3, h4⟩
        rw [ih fuel'' node.left _ true pl (by omega) h1]
        simp only [Option.some_bind]
        rw [ih fuel'' node.right _ true pr (by omega) h3]
        simp only [Option.some_bind]
        exact h4

theorem traverseFuel_isSome (mem : VadMem) :
    ∀ (fuel off : Nat) (v : Finset Nat) (asChild : Bool),
      2 * ((memDom mem) \ v).card + (if asChild then 0 else 1) < fuel →
      (traverseFuel mem fuel off v asChild).isSome = true := by
  intro fuel
  induction fuel with
  | zero =>
    intro off v asChild h
    exact absurd h (by omega)
  | succ fuel ih =>
    intro off v asChild h
    rw [traverseFuel]
    cases hl : lookupNode mem off with
    | none => simp
    | some node =>
      simp only
      by_cases hv : off ∈ v
      · rw [if_pos hv]; simp
      · rw [if_neg hv]
        have hoff : off ∈ memDom mem \ v := by
          rw [Finset.mem_sdiff]
          exact ⟨lookupNode_mem_dom mem off node hl, hv⟩
        have hcard : (memDom mem \ insert off v).card < (memDom mem \ v).card := by
          apply Finset.card_lt_card
          rw [Finset.ssubset_def]
          constructor
          · exact Finset.sdiff_subset_sdiff (Finset.Subset.refl _) (Finset.subset_insert _ _)
          · intro hcon
            have hmem := hcon hoff
            rw [Finset.mem_sdiff, Finset.mem_insert] at hmem
            exact hmem.2 (Or.inl rfl)
        cases asChild with
        | true =>
          rw [if_pos rfl] at h
          rw [if_pos rfl]
          have hL : (traverseFuel mem fuel node.left (insert off v) true).isSome = true := by
            apply ih
            rw [if_pos rfl]
            omega
          rcases Option.isSome_iff_exists.mp hL with ⟨⟨outL, v1⟩, h1⟩
          rw [h1, Option.some_bind]
          have hsub1 : insert off v ⊆ v1 :=
            traverseFuel_subset mem fuel node.left (insert off v) true outL v1 h1
          have hc1 : (memDom mem \ v1).card ≤ (memDom mem \ insert off v).card :=
            Finset.card_le_card
              (Finset.sdiff_subset_sdiff (Finset.Subset.refl _) hsub1)
          have hR : (traverseFuel mem fuel node.right v1 true).isSome = true := by
            apply ih
            rw [if_pos rfl]
            omega
          rcases Option.isSome_iff_exists.mp hR with ⟨⟨outR, v2⟩, h2⟩
          rw [h2, Option.some_bind]
          simp
        | false =>
          rw [if_neg Bool.false_ne_true] at h
          rw [if_neg Bool.false_ne_true]
          have hL : (traverseFuel mem fuel node.left v true).isSome = true := by
            apply ih
            rw [if_pos rfl]
            omega
          rcases Option.isSome_iff_exists.mp hL with ⟨⟨outL, v1⟩, h1⟩
          rw [h1, Option.some_bind]
          have hsub1 : v ⊆ v1 :=
            traverseFuel_subset mem fuel node.left v true outL v1 h1
          have hc1 : (memDom mem \ v1).card ≤ (memDom mem \ v).card :=
            Finset.card_le_card
              (Finset.sdiff_subset_sdiff (Finset.Subset.refl _) hsub1)
          have hR : (traverseFuel mem fuel node.right v1 true).isSome = true := by
            apply ih
            rw [if_pos rfl]
            omega
          rcases Option.isSome_iff_exists.mp hR with ⟨⟨outR, v2⟩, h2⟩
          rw [h2, Option.some_bind]
          simp

theorem traverseFuel_child_spec (mem : VadMem) :
    ∀ (fuel off : Nat) (v : Finset Nat) (out : List Nat) (v' : Finset Nat),
      traverseFuel mem fuel off v true = some (out, v') →
      out.Nodup ∧ (∀ x ∈ out, x ∉ v) ∧ v' = v ∪ out.toFinset := by
  intro fuel
  induction fuel with
  | zero => intro off v out v' h; simp [traverseFuel] at h
  | succ fuel ih =>
    intro off v out v' h
    rw [traverseFuel] at h
    cases hl : lookupNode mem off with
    | none =>
      rw [hl] at h
      simp only [Option.some.injEq, Prod.mk.injEq] at h
      refine ⟨?_, ?_, ?_⟩ <;> simp [← h.1, ← h.2]
    | some node =>
      rw [hl] at h
      simp only at h
      by_cases hv : off ∈ v
      · rw [if_pos hv] at h
        simp only [Option.some.injEq, Prod.mk.injEq] at h
        refine ⟨?_, ?_, ?_⟩ <;> simp [← h.1, ← h.2]
      · rw [if_neg hv, if_pos trivial] at h
        rcases Option.bind_eq_some.mp h with ⟨⟨outL, v1⟩, h1, h2⟩
        rcases Option.bind_eq_some.mp h2 with ⟨⟨outR, v2⟩, h3, h4⟩
        simp only [Option.some.injEq, Prod.mk.injEq] at h4
        obtain ⟨heq, hv'⟩ := h4
        obtain ⟨hndL, hdisjL, hv1⟩ := ih node.left (insert off v) outL v1 h1
        obtain ⟨hndR, hdisjR, hv2⟩ := ih node.right v1 outR v2 h3
        have hoffL : off ∉ outL := fun hx => hdisjL off hx (Finset.mem_insert_self off v)
        have hoffR : off ∉ outR := fun hx =>
          hdisjR off hx (by rw [hv1]; exact Finset.mem_union_left _ (Finset.mem_insert_self off v))
        have hLv : ∀ x ∈ outL, x ∉ v := fun x hx hxv =>
          hdisjL x hx (Finset.mem_insert_of_mem hxv)
        have hRv : ∀ x ∈ outR, x ∉ v := fun x hx hxv =>
          hdisjR x hx (by rw [hv1]; exact Finset.mem_union_left _ (Finset.mem_insert_of_mem hxv))
        have hRL : ∀ x ∈ outR, x ∉ outL := fun x hx hxL =>
          hdisjR x hx (by rw [hv1]; exact Finset.mem_union_right _ (List.mem_toFinset.mpr hxL))
        refine ⟨?_, ?_, ?_⟩
        · rw [← heq, List.cons_append]
          rw [List.nodup_cons, List.nodup_append]
          refine ⟨?_, hndL, hndR, ?_⟩
          · rw [List.mem_append]
            rintro (hc | hc)
            · exact hoffL hc
            · exact hoffR hc
          · intro a haL haR
            exact hRL a haR haL
        · rw [← heq, List.cons_append]
          intro x hx
          rcases List.mem_cons.mp hx with hx | hx
          · rw [hx]; exact hv
          · rcases List.mem_append.mp hx with hx | hx
            · exact hLv x hx
            · exact hRv x hx
        · rw [← hv', hv2, hv1, ← heq, List.cons_append]
          ext a
          simp only [Finset.mem_union, Finset.mem_insert, List.mem_toFinset,
            List.toFinset_cons, List.toFinset_append, List.mem_cons, List.mem_append]
          tauto

theorem traverseFuel_root_count (mem : VadMem) (fuel off : Nat) (v : Finset Nat)
    (out : List Nat) (v' : Finset Nat)
    (h : traverseFuel mem fuel off v false = some (out, v')) :
    (∀ x, x ≠ off → out.count x ≤ 1) ∧ out.count off ≤ 2 := by
  cases fuel with
  | zero => simp [traverseFuel] at h
  | succ fuel =>
    rw [traverseFuel] at h
    cases hl : lookupNode mem off with
    | none =>
      rw [hl] at h
      simp only [Option.some.injEq, Prod.mk.injEq] at h
      constructor <;> simp [← h.1]
    | some node =>
      rw [hl] at h
      simp only at h
      by_cases hv : off ∈ v
      · rw [if_pos hv] at h
        simp only [Option.some.injEq, Prod.mk.injEq] at h
        constructor <;> simp [← h.1]
      · rw [if_neg hv, if_neg Bool.false_ne_true] at h
        rcases Option.bind_eq_some.mp h with ⟨⟨outL, v1⟩, h1, h2⟩
        rcases Option.bind_eq_some.mp h2 with ⟨⟨outR, v2⟩, h3, h4⟩
        simp only [Option.some.injEq, Prod.mk.injEq] at h4
        obtain ⟨hndL, _, hv1⟩ := traverseFuel_child_spec mem fuel node.left v outL v1 h1
        obtain ⟨hndR, hdisjR, _⟩ := traverseFuel_child_spec mem fuel node.right v1 outR v2 h3
        have hRL : ∀ x ∈ outR, x ∉ outL := fun x hx hxL =>
          hdisjR x hx (by rw [hv1]; exact Finset.mem_union_right _ (List.mem_toFinset.mpr hxL))
        have hnd : (outL ++ outR).Nodup := by
          rw [List.nodup_append]
          exact ⟨hndL, hndR, fun a haL haR => hRL a haR haL⟩
        have hcnt : ∀ x, (outL ++ outR).count x ≤ 1 :=
          List.nodup_iff_count_le_one.mp hnd
        rw [← h4.1, List.cons_append]
        constructor
        · intro x hx
          rw [List.count_cons]
          have hbe : (off == x) = false := beq_false_of_ne fun hc => hx hc.symm
          rw [hbe]
          simpa using hcnt x
        · rw [List.count_cons]
          have := hcnt off
          split <;> omega

/-! ## Simulation of the walker on well-formed trees -/

theorem lookup_toMem_none (t : VadTree) (x : Nat) (hx : x ∉ t.preorder) :
    List.lookup x t.toMem = none := by
  induction t with
  | leaf => simp [VadTree.toMem]
  | node off l r ihl ihr =>
    simp only [VadTree.preorder, List.mem_cons, List.mem_append] at hx
    push_neg at hx
    obtain ⟨hne, hnl, hnr⟩ := hx
    rw [VadTree.toMem, lookup_cons_ne _ _ _ _ hne, lookup_append_none _ _ _ (ihl hnl)]
    exact ihr hnr

theorem treeInMem_cons (k : Nat) (nd : MNode) (M : VadMem) (t : VadTree)
    (hk : k ∉ t.preorder) (h : treeInMem M t) : treeInMem ((k, nd) :: M) t := by
  induction t with
  | leaf => trivial
  | node off l r ihl ihr =>
    simp only [VadTree.preorder, List.mem_cons, List.mem_append] at hk
    push_neg at hk
    obtain ⟨hlook, hl, hr⟩ := h
    refine ⟨?_, ihl (fun c => hk.2.1 c) hl, ihr (fun c => hk.2.2 c) hr⟩
    rw [lookupNode, lookup_cons_ne _ _ _ _ (Ne.symm hk.1)]
    exact hlook

theorem treeInMem_append_left (M M' : VadMem) (t : VadTree) (h : treeInMem M t) :
    treeInMem (M ++ M') t := by
  induction t with
  | leaf => trivial
  | node off l r ihl ihr =>
    obtain ⟨hlook, hl, hr⟩ := h
    exact ⟨lookup_append_some _ _ _ _ hlook, ihl hl, ihr hr⟩

theorem treeInMem_append_right (M M' : VadMem) (t : VadTree)
    (hnone : ∀ x ∈ t.preorder, List.lookup x M = none) (h : treeInMem M' t) :
    treeInMem (M ++ M') t := by
  induction t with
  | leaf => trivial
  | node off l r ihl ihr =>
    obtain ⟨hlook, hl, hr⟩ := h
    refine ⟨?_, ?_, ?_⟩
    · rw [lookupNode, lookup_append_none _ _ _ (hnone off (by simp [VadTree.preorder]))]
      exact hlook
    · exact ihl (fun x hx => hnone x (by simp [VadTree.preorder, hx])) hl
    · exact ihr (fun x hx => hnone x (by simp [VadTree.preorder, hx])) hr

theorem treeInMem_toMem (t : VadTree) (hnd : t.preorder.Nodup) : treeInMem t.toMem t := by
  induction t with
  | leaf => trivial
  | node off l r ihl ihr =>
    rw [VadTree.preorder] at hnd
    rw [List.nodup_cons, List.nodup_append] at hnd
    obtain ⟨hoff, hndl, hndr, hdisj⟩ := hnd
    rw [List.mem_append] at hoff
    push_neg at hoff
    refine ⟨?_, ?_, ?_⟩
    · rw [VadTree.toMem, lookupNode, List.lookup_cons]
      simp
    · apply treeInMem_cons _ _ _ _ hoff.1
      exact treeInMem_append_left _ _ _ (ihl hndl)
    · apply treeInMem_cons _ _ _ _ hoff.2
      apply treeInMem_append_right
      · exact fun x hx => lookup_toMem_none l x (fun hc => hdisj hc hx)
      · exact ihr hndr

theorem traverseFuel_tree (M : VadMem) (hzero : lookupNode M 0 = none) :
    ∀ (t : VadTree) (fuel : Nat) (v : Finset Nat),
      treeInMem M t → t.preorder.Nodup → (∀ x ∈ t.preorder, x ∉ v) →
      t.size < fuel →
      traverseFuel M fuel t.rootOff v true
        = some (t.preorder, v ∪ t.preorder.toFinset) := by
  intro t
  induction t with
  | leaf =>
    intro fuel v _ _ _ hsz
    cases fuel with
    | zero => omega
    | succ fuel =>
      rw [VadTree.rootOff, traverseFuel, hzero]
      simp [VadTree.preorder]
  | node off l r ihl ihr =>
    intro fuel v hin hnd hdisj hsz
    cases fuel with
    | zero => rw [VadTree.size] at hsz; omega
    | succ fuel =>
      obtain ⟨hlook, hinl, hinr⟩ := hin
      rw [VadTree.preorder] at hnd hdisj ⊢
      rw [List.nodup_cons, List.nodup_append] at hnd
      obtain ⟨hoff, hndl, hndr, hdisjlr⟩ := hnd
      rw [List.mem_append] at hoff
      push_neg at hoff
      have hoffv : off ∉ v := hdisj off (by simp)
      rw [VadTree.rootOff, traverseFuel, hlook]
      simp only
      rw [if_neg hoffv, if_pos trivial]
      rw [VadTree.size] at hsz
      have hleft : traverseFuel M fuel (VadTree.rootOff l) (insert off v) true
          = some (l.preorder, insert off v ∪ l.preorder.toFinset) := by
        apply ihl fuel (insert off v) hinl hndl _ (by omega)
        intro x hx
        rw [Finset.mem_insert]
        push_neg
        exact ⟨fun hc => hoff.1 (hc ▸ hx), hdisj x (by simp [hx])⟩
      rw [hleft, Option.some_bind]
      have hright : traverseFuel M fuel (VadTree.rootOff r)
          (insert off v ∪ l.preorder.toFinset) true
          = some (r.preorder, (insert off v ∪ l.preorder.toFinset) ∪ r.preorder.toFinset) := by
        apply ihr fuel _ hinr hndr _ (by omega)
        intro x hx
        rw [Finset.mem_union, Finset.mem_insert, List.mem_toFinset]
        push_neg
        exact ⟨⟨fun hc => hoff.2 (hc ▸ hx), hdisj x (by simp [hx])⟩,
          fun hc => hdisjlr hc hx⟩
      rw [hright, Option.some_bind]
      have hset : (insert off v ∪ l.preorder.toFinset) ∪ r.preorder.toFinset
          = v ∪ (off :: (l.preorder ++ r.preorder)).toFinset := by
        ext a
        simp only [Finset.mem_union, Finset.mem_insert, List.mem_toFinset,
          List.toFinset_cons, List.toFinset_append, List.mem_cons, List.mem_append]
        tauto
      rw [hset, List.cons_append]

/-! ## Claim C1 -/

/-- C1 (counterexample): the claim "each distinct absolute offset appears
at most once" fails as stated.  On `cyclicVadMem` — a tree containing a
cycle, since the node at offset 1 stores itself as `LeftChild` — the
walker terminates but yields offset 1 twice: the start node's offset is
never added to the visited set (only offsets yielded by a *child*
traversal are added, by the parent's loop), so the cycle back to the start
yields it a second time. -/
theorem c1_cyclic_offset_twice :
    lookupNode cyclicVadMem 1 = some ⟨1, 0⟩ ∧
      MMVAD.traverse cyclicVadMem 1 = [1, 1] ∧
      ¬ (MMVAD.traverse cyclicVadMem 1).count 1 ≤ 1 := by
  refine ⟨rfl, by decide, by decide⟩

/-- C1 (amended): for every memory image and start offset — in particular
for every tree containing a cycle — `_MMVAD.traverse` terminates
(`traverseBound` fuel always suffices), each distinct offset other than
the start offset appears at most once in the yielded sequence, and the
start offset appears at most twice. -/
theorem c1_traverse_terminates (mem : VadMem) (off : Nat) :
    (traverseFuel mem (traverseBound mem) off ∅ false).isSome = true ∧
      (∀ x, x ≠ off → (MMVAD.traverse mem off).count x ≤ 1) ∧
      (MMVAD.traverse mem off).count off ≤ 2 := by
  have hs : (traverseFuel mem (traverseBound mem) off ∅ false).isSome = true := by
    apply traverseFuel_isSome
    rw [if_neg Bool.false_ne_true, Finset.sdiff_empty, traverseBound]
    omega
  rcases Option.isSome_iff_exists.mp hs with ⟨⟨out, v'⟩, he⟩
  have ht : MMVAD.traverse mem off = out := by rw [MMVAD.traverse, he]; rfl
  obtain ⟨h1, h2⟩ := traverseFuel_root_count mem (traverseBound mem) off ∅ out v' he
  exact ⟨hs, by rw [ht]; exact h1, by rw [ht]; exact h2⟩

/-- Witness for `c1_traverse_terminates`, at the concrete cyclic image. -/
theorem c1_traverse_terminates_witness :
    (traverseFuel cyclicVadMem (traverseBound cyclicVadMem) 1 ∅ false).isSome = true ∧
      (MMVAD.traverse cyclicVadMem 1).count 0 ≤ 1 ∧ (MMVAD.traverse cyclicVadMem 1).count 1 ≤ 2 :=
  ⟨(c1_traverse_terminates cyclicVadMem 1).1,
   (c1_traverse_terminates cyclicVadMem 1).2.1 0 (by decide),
   (c1_traverse_terminates cyclicVadMem 1).2.2⟩

/-! ## Claim C3 -/

/-- C3: on every well-formed address-descriptor tree — distinct node
offsets, none equal to the null encoding 0, hence no cycles and no shared
subtrees — `_MMVAD.traverse` yields exactly the
self-then-left-subtree-then-right-subtree (preorder) listing of the node
offsets; with the no-duplicates hypothesis this is each node exactly once,
in that order. -/
theorem c3_traverse_wellformed (t : VadTree) (hnd : t.preorder.Nodup)
    (hz : (0 : Nat) ∉ t.preorder) :
    MMVAD.traverse t.toMem t.rootOff = t.preorder := by
  have hzero : lookupNode t.toMem 0 = none := lookup_toMem_none t 0 hz
  obtain ⟨sv, hfix⟩ : ∃ sv, traverseFuel t.toMem (t.size + 1) t.rootOff ∅ false
      = some (t.preorder, sv) := by
    cases t with
    | leaf =>
      refine ⟨∅, ?_⟩
      rw [VadTree.rootOff, traverseFuel, hzero]
      rfl
    | node off l r =>
      have htm := treeInMem_toMem (.node off l r) hnd
      obtain ⟨hlook, hinl, hinr⟩ := htm
      rw [VadTree.preorder] at hnd
      rw [List.nodup_cons, List.nodup_append] at hnd
      obtain ⟨hoff, hndl, hndr, hdisjlr⟩ := hnd
      refine ⟨(∅ ∪ l.preorder.toFinset) ∪ r.preorder.toFinset, ?_⟩
      rw [VadTree.rootOff, traverseFuel, hlook]
      simp only
      rw [if_neg (Finset.not_mem_empty off), if_neg Bool.false_ne_true]
      have hszl : l.size < (VadTree.node off l r).size := by rw [VadTree.size]; omega
      have hszr : r.size < (VadTree.node off l r).size := by rw [VadTree.size]; omega
      have hdR : ∀ x ∈ r.preorder, x ∉ (∅ ∪ l.preorder.toFinset) := by
        intro x hx
        simp only [Finset.mem_union, Finset.not_mem_empty, List.mem_toFinset, false_or]
        exact fun hc => hdisjlr hc hx
      have hL := traverseFuel_tree _ hzero l (VadTree.node off l r).size ∅ hinl hndl
        (by simp) hszl
      have hR := traverseFuel_tree _ hzero r (VadTree.node off l r).size
        (∅ ∪ l.preorder.toFinset) hinr hndr hdR hszr
      rw [hL, Option.some_bind, hR, Option.some_bind, List.cons_append]
      rfl
  have hs : (traverseFuel t.toMem (traverseBound t.toMem) t.rootOff ∅ false).isSome
      = true := by
    apply traverseFuel_isSome
    rw [if_neg Bool.false_ne_true, Finset.sdiff_empty, traverseBound]
    omega
  rcases Option.isSome_iff_exists.mp hs with ⟨r0, hr0⟩
  have hmax1 := traverseFuel_mono t.toMem (t.size + 1)
    (max (t.size + 1) (traverseBound t.toMem)) t.rootOff ∅ false (t.preorder, sv)
    (le_max_left _ _) hfix
  have hmax2 := traverseFuel_mono t.toMem (traverseBound t.toMem)
    (max (t.size + 1) (traverseBound t.toMem)) t.rootOff ∅ false r0
    (le_max_right _ _) hr0
  rw [hmax1] at hmax2
  have hr : r0 = (t.preorder, sv) := (Option.some_inj.mp hmax2).symm
  rw [MMVAD.traverse, hr0, hr]
  rfl

/-- Witness for `c3_traverse_wellformed` at a concrete three-node tree. -/
theorem c3_traverse_wellformed_witness :
    sampleTree.preorder.Nodup ∧ (0 : Nat) ∉ sampleTree.preorder ∧
      MMVAD.traverse sampleTree.toMem sampleTree.rootOff = sampleTree.preorder :=
  ⟨by decide, by decide, c3_traverse_wellformed sampleTree (by decide) (by decide)⟩

/-! ## Claim C5 -/

/-- C5: for every token whose underlying view is readable
(`obj.CType.is_valid` holds), `_TOKEN.is_valid` accepts the token iff its
`TokenInUse` flag is exactly 0 or 1 and its `SessionId` is strictly below
10.  In particular a token with flag value 2 is rejected; a token with
flag 0 or 1 and session id 9 is accepted; a token with session id 10 or
greater is rejected. -/
theorem c5_token_is_valid_iff (t : TokenView) (h : t.baseValid = true) :
    TOKEN.is_valid t = true ↔
      ((t.TokenInUse = 0 ∨ t.TokenInUse = 1) ∧ t.SessionId < 10) := by
  simp [TOKEN.is_valid, h]

/-- Witness for `c5_token_is_valid_iff`: a readable token with flag 1 and
session id 9 is accepted. -/
theorem c5_token_is_valid_iff_witness :
    TOKEN.is_valid ⟨true, 1, 9, 0, []⟩ = true :=
  (c5_token_is_valid_iff ⟨true, 1, 9, 0, []⟩ rfl).mpr (by simp)

/-! ## Claim C6 -/

/-- C6: `_MMVAD.dereference` maps each of the five entries of the fixed
tag table to a view of the corresponding concrete type at the same offset
('Vadl', 'Vad ' and 'Vadm' to `_MMVAD_LONG`; 'VadS' and 'VadF' to
`_MMVAD_SHORT`), and on every unrecognized tag returns the explicit absent
result `none` rather than raising an error. -/
theorem c6_tag_dispatch (v : MMVadView) :
    (v.Tag = "Vadl" → MMVAD.dereference v = some ("_MMVAD_LONG", v.offset)) ∧
    (v.Tag = "VadS" → MMVAD.dereference v = some ("_MMVAD_SHORT", v.offset)) ∧
    (v.Tag = "Vad " → MMVAD.dereference v = some ("_MMVAD_LONG", v.offset)) ∧
    (v.Tag = "VadF" → MMVAD.dereference v = some ("_MMVAD_SHORT", v.offset)) ∧
    (v.Tag = "Vadm" → MMVAD.dereference v = some ("_MMVAD_LONG", v.offset)) ∧
    (v.Tag ∉ ["Vadl", "VadS", "Vad ", "VadF", "Vadm"] → MMVAD.dereference v = none) := by
  obtain ⟨tg, off⟩ := v
  refine ⟨?_, ?_, ?_, ?_, ?_, ?_⟩ <;> intro h
  · subst h; rfl
  · subst h; rfl
  · subst h; rfl
  · subst h; rfl
  · subst h; rfl
  · simp only [List.mem_cons, List.not_mem_nil, or_false, not_or] at h
    obtain ⟨h1, h2, h3, h4, h5⟩ := h
    show (match List.lookup tg MMVAD.tag_map with
      | none => none
      | some ty => some (ty, off)) = none
    rw [MMVAD.tag_map, lookup_cons_ne _ _ _ _ h1, lookup_cons_ne _ _ _ _ h2,
      lookup_cons_ne _ _ _ _ h3, lookup_cons_ne _ _ _ _ h4,
      lookup_cons_ne _ _ _ _ h5, List.lookup_nil]

/-- Witness for `c6_tag_dispatch`: a recognized and an unrecognized tag. -/
theorem c6_tag_dispatch_witness :
    MMVAD.dereference ⟨"Vadl", 3⟩ = some ("_MMVAD_LONG", 3) ∧
      MMVAD.dereference ⟨"Junk", 3⟩ = none :=
  ⟨(c6_tag_dispatch ⟨"Vadl", 3⟩).1 rfl,
   (c6_tag_dispatch ⟨"Junk", 3⟩).2.2.2.2.2 (by decide)⟩

/-! ## Claim C7 -/

/-- C7: when the user/group count passes the `< 0xFFFF` sanity bound,
`_TOKEN.get_sids` yields exactly one canonical
`S-<revision>-<identifier-authority>-<subauthority>-...` string per
user/group entry; when the count fails the bound, no SIDs are produced;
and the concrete SID with revision 1, identifier authority 5 and
subauthorities 21, 100, 200, 1000 renders as "S-1-5-21-100-200-1000". -/
theorem c7_get_sids (t : TokenView) :
    (t.UserAndGroupCount < 0xFFFF → TOKEN.get_sids t = t.sids.map sidToString) ∧
    (0xFFFF ≤ t.UserAndGroupCount → TOKEN.get_sids t = []) ∧
    sidToString ⟨1, [0, 0, 0, 0, 0, 5], [21, 100, 200, 1000]⟩ = "S-1-5-21-100-200-1000" := by
  refine ⟨fun h => ?_, fun h => ?_, ?_⟩
  · rw [TOKEN.get_sids, if_pos h]
  · rw [TOKEN.get_sids, if_neg (by omega)]
  · rfl

/-- Witness for `c7_get_sids` at a concrete one-entry token. -/
theorem c7_get_sids_witness :
    TOKEN.get_sids ⟨true, 0, 1, 2, [⟨1, [0, 0, 0, 0, 0, 5], [21, 100, 200, 1000]⟩]⟩
        = ["S-1-5-21-100-200-1000"] ∧
      TOKEN.get_sids ⟨true, 0, 1, 0xFFFF, [⟨1, [0, 0, 0, 0, 0, 5], [21]⟩]⟩ = [] := by
  constructor
  · rw [(c7_get_sids ⟨true, 0, 1, 2, [⟨1, [0, 0, 0, 0, 0, 5], [21, 100, 200, 1000]⟩]⟩).1
      (by norm_num)]
    rfl
  · exact (c7_get_sids ⟨true, 0, 1, 0xFFFF, [⟨1, [0, 0, 0, 0, 0, 5], [21]⟩]⟩).2.1 (by norm_num)

/-! ## Claim C9 -/

/-- C9: the decoded value of a `_UNICODE_STRING` is non-empty only when
`0 < Length ≤ 1024`; when `Length` is 0 or exceeds 1024, `v` returns the
empty string whatever the buffer holds — the result does not depend on the
buffer-decoding function, i.e. the buffer is not dereferenced. -/
theorem c9_unicode_v (u : UnicodeStringView) :
    (UNICODE_STRING.v u ≠ "" → 0 < u.Length ∧ u.Length ≤ 1024) ∧
    (u.Length = 0 ∨ 1024 < u.Length →
      ∀ f : Nat → String, UNICODE_STRING.v ⟨u.Length, u.bufferTruthy, f⟩ = "") := by
  constructor
  · intro h
    by_contra hc
    exact h (by rw [UNICODE_STRING.v, if_neg hc])
  · intro h f
    show (if 0 < u.Length ∧ u.Length ≤ 1024 then f u.Length else "") = ""
    rw [if_neg (by omega)]

/-- Witness for `c9_unicode_v`: an in-range length decodes non-trivially,
an out-of-range length decodes to the empty string. -/
theorem c9_unicode_v_witness :
    ((0 : Nat) < 4 ∧ (4 : Nat) ≤ 1024) ∧
      UNICODE_STRING.v ⟨2000, true, fun _ => "XY"⟩ = "" :=
  ⟨(c9_unicode_v ⟨4, true, fun _ => "ab"⟩).1 (by decide),
   (c9_unicode_v ⟨2000, true, fun _ => "XY"⟩).2 (by decide) (fun _ => "XY")⟩

/-! ## Lemmas about scanning a page-sized array until the first invalid slot -/

theorem mem_takeWhile_range'_lt (p : Nat → Bool) :
    ∀ (n s k i : Nat), s ≤ k → k < s + n → p k = false →
      i ∈ (List.range' s n).takeWhile p → i < k := by
  intro n
  induction n with
  | zero => intro s k i _ _ _ hi; simp at hi
  | succ n ih =>
    intro s k i hsk hk hpk hi
    rw [List.range'_succ, List.takeWhile_cons] at hi
    have hsk' : s ≠ k → s < k := by omega
    by_cases hps : p s = true
    · rw [if_pos hps] at hi
      have hne : s ≠ k := fun hc => by rw [hc, hpk] at hps; exact absurd hps (by simp)
      rcases List.mem_cons.mp hi with rfl | hi'
      · exact hsk' hne
      · exact ih (s + 1) k i (by have := hsk' hne; omega) (by omega) hpk hi'
    · rw [if_neg hps] at hi
      simp at hi

theorem mem_takeWhile_range_lt (p : Nat → Bool) (n k i : Nat) (hk : k < n)
    (hpk : p k = false) (hi : i ∈ (List.range n).takeWhile p) : i < k := by
  rw [List.range_eq_range'] at hi
  exact mem_takeWhile_range'_lt p n 0 k i (by omega) (by omega) hpk hi

theorem takeWhile_range'_eq (p : Nat → Bool) :
    ∀ (n s k : Nat), k ≤ n → (∀ i, i < k → p (s + i) = true) →
      (k = n ∨ p (s + k) = false) →
      (List.range' s n).takeWhile p = List.range' s k := by
  intro n
  induction n with
  | zero =>
    intro s k hk _ _
    have : k = 0 := by omega
    subst this
    rfl
  | succ n ih =>
    intro s k hk hall hstop
    rw [List.range'_succ, List.takeWhile_cons]
    cases k with
    | zero =>
      have hps : p s = false := by
        rcases hstop with h | h
        · omega
        · simpa using h
      rw [hps]
      rfl
    | succ k' =>
      have hps : p s = true := by simpa using hall 0 (by omega)
      rw [hps, if_pos rfl]
      rw [ih (s + 1) k' (by omega) ?all ?stop, ← List.range'_succ]
      case all =>
        intro i hi
        rw [show s + 1 + i = s + (i + 1) by omega]
        exact hall (i + 1) (by omega)
      case stop =>
        rcases hstop with h | h
        · exact Or.inl (by omega)
        · exact Or.inr (by rw [show s + 1 + k' = s + (k' + 1) by omega]; exact h)

theorem filterMap_eq_map_of_forall {α β : Type} (f : α → Option β) (g : α → β) :
    ∀ l : List α, (∀ a ∈ l, f a = some (g a)) → l.filterMap f = l.map g := by
  intro l
  induction l with
  | nil => intro _; rfl
  | cons a l ih =>
    intro h
    simp only [List.filterMap_cons, h a (List.mem_cons_self a l), List.map_cons]
    rw [ih (fun x hx => h x (List.mem_cons_of_mem a hx))]

theorem find?_range'_eq (q : Nat → Bool) :
    ∀ (n s i : Nat), s ≤ i → i < s + n → (∀ j, q j = true ↔ j = i) →
      (List.range' s n).find? q = some i := by
  intro n
  induction n with
  | zero => intro s i h1 h2 _; omega
  | succ n ih =>
    intro s i h1 h2 hq
    rw [List.range'_succ]
    by_cases hsi : s = i
    · rw [List.find?_cons_of_pos _ ((hq s).mpr hsi), hsi]
    · rw [List.find?_cons_of_neg _ (by rw [hq s]; exact hsi)]
      exact ih (s + 1) i (by omega) (by omega) hq

/-! ## Claim C8 -/

/-- C8: within a single page-sized array, the first entry failing the
validity check terminates the scan of that whole array.  At level 0, if
entry `k` fails `is_valid()`, every yielded pair comes from a valid entry
at an index strictly below `k` (no later entry is yielded, even if it
would itself be valid); at levels `> 0`, if slot `k` fails, every slot the
walker recurses into sits at an index strictly below `k`. -/
theorem c8_scan_stop (M : HandleMem) (offset depth k : Nat) :
    (k < PAGE_SIZE / M.entrySize →
      M.entryValid (offset + k * M.entrySize) = false →
      ∀ p ∈ makeHandleArray M 0 offset depth,
        ∃ i, i < k ∧ M.entryValid (offset + i * M.entrySize) = true ∧
          p.1 = handleValue M offset depth i) ∧
    (k < PAGE_SIZE / M.addrSize →
      M.slot (offset + k * M.addrSize) = none →
      ∀ w ∈ scanSlots M offset,
        ∃ j, j < k ∧ M.slot (offset + j * M.addrSize) = some w) := by
  constructor
  · intro hk hinv p hp
    rw [makeHandleArray] at hp
    rcases List.mem_filterMap.mp hp with ⟨i, hi, hfi⟩
    rw [bottomEntries] at hi
    have hik : i < k :=
      mem_takeWhile_range_lt _ _ k i hk (by simpa using hinv) hi
    have hval := List.mem_takeWhile_imp hi
    refine ⟨i, hik, by simpa using hval, ?_⟩
    rw [bottomItem] at hfi
    cases hit : M.item (offset + i * M.entrySize) with
    | none => rw [hit] at hfi; simp at hfi
    | some it =>
      rw [hit] at hfi
      simp only at hfi
      by_cases hpf : passesFilter it = true
      · rw [if_pos hpf] at hfi
        have := Option.some_inj.mp hfi
        rw [← this]
      · rw [if_neg hpf] at hfi
        simp at hfi
  · intro hk hinv w hw
    rw [scanSlots] at hw
    rcases List.mem_filterMap.mp hw with ⟨j, hj, hfj⟩
    have hjk : j < k :=
      mem_takeWhile_range_lt _ _ k j hk (by rw [hinv]; rfl) hj
    exact ⟨j, hjk, hfj⟩

/-- Witness for `c8_scan_stop` on `gapMem`, whose entry 1 is invalid while
entry 2 would be valid: the only yielded pair comes from an index below 1. -/
theorem c8_scan_stop_witness :
    ∃ i, i < 1 ∧ gapMem.entryValid (0 + i * gapMem.entrySize) = true ∧
      (0 : Nat) = handleValue gapMem 0 0 i :=
  (c8_scan_stop gapMem 0 0 1).1 (by decide) (by decide) (0, .newHeader 3)
    (by rw [show makeHandleArray gapMem 0 0 0
        = [(0, ObjHeaderData.newHeader 3)] from rfl]
        exact List.mem_cons_self _ _)

/-! ## Claim C10 -/

theorem makeHandleArray_filter (M : HandleMem) :
    ∀ (level offset depth : Nat), ∀ p ∈ makeHandleArray M level offset depth,
      passesFilter p.2 = true := by
  intro level
  induction level with
  | zero =>
    intro offset depth p hp
    rw [makeHandleArray] at hp
    rcases List.mem_filterMap.mp hp with ⟨i, _, hfi⟩
    rw [bottomItem] at hfi
    cases hit : M.item (offset + i * M.entrySize) with
    | none => rw [hit] at hfi; simp at hfi
    | some it =>
      rw [hit] at hfi
      simp only at hfi
      by_cases hpf : passesFilter it = true
      · rw [if_pos hpf] at hfi
        have := Option.some_inj.mp hfi
        rw [← this]
        exact hpf
      · rw [if_neg hpf] at hfi
        simp at hfi
  | succ level ih =>
    intro offset depth p hp
    rw [makeHandleArray] at hp
    rcases List.mem_flatMap.mp hp with ⟨jv, _, hin⟩
    exact ih jv.2 (depth + jv.1) p hin

/-- C10 (amended): every object header yielded by handle-table enumeration
passes the non-null-object filter actually implemented: its `TypeIndex` is
nonzero, or, when the layout has no `TypeIndex` field, its `Type.Name` is
*truthy* — i.e. the name's `Buffer` pointer is truthy — which does not
guarantee that the decoded name is non-empty.  Entries failing the filter
are skipped, not yielded. -/
theorem c10_yielded_pass_filter (M : HandleMem) (tableCode : Nat) :
    ∀ p ∈ HANDLE_TABLE.handles M tableCode, passesFilter p.2 = true := by
  intro p hp
  exact makeHandleArray_filter M (tableCode % 8) (tableCode - tableCode % 8) 0 p hp

/-- Witness for `c10_yielded_pass_filter` on `levelZeroMem`. -/
theorem c10_yielded_pass_filter_witness :
    passesFilter (ObjHeaderData.newHeader 7) = true :=
  c10_yielded_pass_filter levelZeroMem 0 (0, .newHeader 7)
    (by rw [show HANDLE_TABLE.handles levelZeroMem 0
        = [(0, ObjHeaderData.newHeader 7), (4, ObjHeaderData.newHeader 9)] from rfl]
        exact List.mem_cons_self _ _)

/-- C10 (counterexample): the claim's "Type.Name is non-empty" fails as
stated.  On `oldHeaderMem`, the walker yields an old-layout header whose
`Type.Name` has a truthy `Buffer` pointer — so `if item.Type.Name:`
accepts it — while its decoded value is the empty string (its `Length` is
0). -/
theorem c10_empty_name_yielded :
    HANDLE_TABLE.handles oldHeaderMem 0 = [(0, .oldHeader emptyTruthyName)] ∧
      UNICODE_STRING.nonzero emptyTruthyName = true ∧
      UNICODE_STRING.v emptyTruthyName = "" :=
  ⟨rfl, rfl, rfl⟩

/-! ## Claim C4 -/

theorem handleValue_eq (M : HandleMem) (hes4 : 4 ∣ M.entrySize) (hes : 0 < M.entrySize)
    (offset depth i : Nat) :
    handleValue M offset depth i = 4 * i + depth * (PAGE_SIZE / M.entrySize) * 4 := by
  obtain ⟨s, hs⟩ := hes4
  have hs0 : 0 < s := by omega
  rw [handleValue, Nat.add_sub_cancel_left, hs]
  rw [show 4 * s / 4 = s from Nat.mul_div_cancel_left s (by norm_num)]
  rw [show i * (4 * s) = (4 * i) * s by ring]
  rw [Nat.mul_div_cancel _ hs0]

/-- C4: for a level-0 handle table (`TableCode` low bits 0) with `N`
densely packed valid entries whose items all resolve and pass the filter,
the handle value reconstructed for the `i`-th entry by the formula
`((entry_offset - base_offset) / (entry_size / 4)) + depth * count * 4`
equals `4 * i`, and `ObReferenceObjectByHandle` on handle `4 * i` returns
entry `i`'s object. -/
theorem c4_level0_handles (M : HandleMem) (tc N : Nat) (it : Nat → ObjHeaderData)
    (hes4 : 4 ∣ M.entrySize) (hes : 0 < M.entrySize)
    (hlvl : tc % 8 = 0)
    (hN : N ≤ PAGE_SIZE / M.entrySize)
    (hvalid : ∀ i, i < N → M.entryValid (tc + i * M.entrySize) = true)
    (hstop : N = PAGE_SIZE / M.entrySize ∨ M.entryValid (tc + N * M.entrySize) = false)
    (hitem : ∀ i, i < N →
      M.item (tc + i * M.entrySize) = some (it i) ∧ passesFilter (it i) = true) :
    HANDLE_TABLE.handles M tc = (List.range N).map (fun i => (4 * i, it i)) ∧
      ∀ i, i < N → ObReferenceObjectByHandle M tc (4 * i) = some (it i) := by
  have hbe : bottomEntries M tc = List.range N := by
    rw [bottomEntries, List.range_eq_range', List.range_eq_range']
    apply takeWhile_range'_eq _ _ 0 N hN
    · intro i hi
      simpa using hvalid i hi
    · simpa using hstop
  have hhv : ∀ i, handleValue M tc 0 i = 4 * i := by
    intro i
    rw [handleValue_eq M hes4 hes]
    simp
  have hmain : HANDLE_TABLE.handles M tc = (List.range N).map (fun i => (4 * i, it i)) := by
    rw [HANDLE_TABLE.handles, hlvl, Nat.sub_zero, makeHandleArray, hbe]
    apply filterMap_eq_map_of_forall
    intro i hi
    have hiN := List.mem_range.mp hi
    rw [bottomItem, (hitem i hiN).1]
    simp only
    rw [if_pos (hitem i hiN).2, hhv i]
  refine ⟨hmain, ?_⟩
  intro i hiN
  rw [ObReferenceObjectByHandle, hmain, List.find?_map]
  have hfind : (List.range N).find? (fun j => (4 * j, it j).1 == 4 * i) = some i := by
    rw [List.range_eq_range']
    apply find?_range'_eq _ N 0 i (by omega) (by omega)
    intro j
    simp only [beq_iff_eq]
    omega
  rw [show ((fun p : Nat × ObjHeaderData => p.1 == 4 * i) ∘ fun j => (4 * j, it j))
      = fun j => (4 * j, it j).1 == 4 * i from rfl]
  rw [hfind]
  rfl

/-- Witness for `c4_level0_handles` on the concrete two-entry table. -/
theorem c4_level0_handles_witness :
    HANDLE_TABLE.handles levelZeroMem 0
        = [(0, ObjHeaderData.newHeader 7), (4, ObjHeaderData.newHeader 9)] ∧
      ObReferenceObjectByHandle levelZeroMem 0 (4 * 1) = some (ObjHeaderData.newHeader 9) := by
  have h := c4_level0_handles levelZeroMem 0 2
    (fun i => if i = 0 then ObjHeaderData.newHeader 7 else ObjHeaderData.newHeader 9)
    (by decide) (by decide) (by decide) (by decide)
    (by intro i hi; interval_cases i <;> decide)
    (by right; decide)
    (by intro i hi; interval_cases i <;> exact ⟨rfl, rfl⟩)
  refine ⟨?_, h.2 1 (by norm_num)⟩
  rw [h.1]
  rfl

/-! ## Claim C2 -/

theorem bottomItem_fst (M : HandleMem) (offset depth i : Nat) (p : Nat × ObjHeaderData)
    (h : bottomItem M offset depth i = some p) : p.1 = handleValue M offset depth i := by
  rw [bottomItem] at h
  cases hit : M.item (offset + i * M.entrySize) with
  | none => rw [hit] at h; simp at h
  | some it =>
    rw [hit] at h
    simp only at h
    by_cases hpf : passesFilter it = true
    · rw [if_pos hpf] at h
      rw [← Option.some_inj.mp h]
    · rw [if_neg hpf] at h
      simp at h

theorem makeHandleArray_dvd (M : HandleMem) (hes4 : 4 ∣ M.entrySize) (hes : 0 < M.entrySize) :
    ∀ (level offset depth : Nat) (p : Nat × ObjHeaderData),
      p ∈ makeHandleArray M level offset depth → 4 ∣ p.1 := by
  intro level
  induction level with
  | zero =>
    intro offset depth p hp
    rw [makeHandleArray] at hp
    rcases List.mem_filterMap.mp hp with ⟨i, _, hfi⟩
    rw [bottomItem_fst M offset depth i p hfi, handleValue_eq M hes4 hes]
    exact ⟨i + depth * (PAGE_SIZE / M.entrySize), by ring⟩
  | succ level ih =>
    intro offset depth p hp
    rw [makeHandleArray] at hp
    rcases List.mem_flatMap.mp hp with ⟨jv, _, hin⟩
    exact ih jv.2 (depth + jv.1) p hin

theorem bottom_bounds (M : HandleMem) (hes4 : 4 ∣ M.entrySize) (hes : 0 < M.entrySize)
    (offset depth : Nat) (p : Nat × ObjHeaderData)
    (hp : p ∈ makeHandleArray M 0 offset depth) :
    depth * (PAGE_SIZE / M.entrySize) * 4 ≤ p.1 ∧
      p.1 < (depth + 1) * (PAGE_SIZE / M.entrySize) * 4 := by
  rw [makeHandleArray] at hp
  rcases List.mem_filterMap.mp hp with ⟨i, hi, hfi⟩
  rw [bottomEntries] at hi
  have hiC : i < PAGE_SIZE / M.entrySize :=
    List.mem_range.mp ((List.takeWhile_sublist _).subset hi)
  rw [bottomItem_fst M offset depth i p hfi, handleValue_eq M hes4 hes]
  have hexp : (depth + 1) * (PAGE_SIZE / M.entrySize) * 4
      = depth * (PAGE_SIZE / M.entrySize) * 4 + (PAGE_SIZE / M.entrySize) * 4 := by ring
  omega

theorem bottom_sorted (M : HandleMem) (hes4 : 4 ∣ M.entrySize) (hes : 0 < M.entrySize)
    (offset depth : Nat) :
    ((makeHandleArray M 0 offset depth).map Prod.fst).Pairwise (· < ·) := by
  rw [makeHandleArray, List.pairwise_map]
  have hsrc : (bottomEntries M offset).Pairwise (· < ·) := by
    rw [bottomEntries]
    exact List.Pairwise.sublist (List.takeWhile_sublist _)
      (List.pairwise_lt_range _)
  have hrel : ∀ a a', a < a' → ∀ p ∈ bottomItem M offset depth a,
      ∀ p' ∈ bottomItem M offset depth a', p.1 < p'.1 := by
    intro a a' haa p hp p' hp'
    rw [Option.mem_def] at hp hp'
    rw [bottomItem_fst M offset depth a p hp, bottomItem_fst M offset depth a' p' hp']
    rw [handleValue_eq M hes4 hes, handleValue_eq M hes4 hes]
    omega
  exact List.Pairwise.filterMap _ hrel hsrc

theorem pairwise_enumFrom_fst {α : Type} :
    ∀ (l : List α) (n : Nat), (l.enumFrom n).Pairwise (fun a b => a.1 < b.1) := by
  intro l
  induction l with
  | nil => intro n; simp
  | cons a l ih =>
    intro n
    rw [List.enumFrom_cons, List.pairwise_cons]
    refine ⟨?_, ih (n + 1)⟩
    intro x hx
    obtain ⟨ix, xa⟩ := x
    have h := List.mem_enumFrom hx
    show n < ix
    omega

theorem pairwise_enum_fst {α : Type} (l : List α) :
    (l.enum).Pairwise (fun a b => a.1 < b.1) :=
  pairwise_enumFrom_fst l 0

/-- C2 (amended): for every handle table, all reconstructed handle values
are divisible by 4; and when the root encodes exactly one level
(`TableCode` low bits = 1), the handle values are strictly monotonically
increasing in traversal order.  (For two or more levels the depth counter
the walker threads through sibling subtables can repeat, so strict
monotonicity fails there — see the counterexample.) -/
theorem c2_handles_monotone (M : HandleMem) (tc : Nat)
    (ha : 0 < M.addrSize) (hes : 0 < M.entrySize) (hes4 : 4 ∣ M.entrySize)
    (hlvl : 0 < tc % 8) :
    (∀ p ∈ HANDLE_TABLE.handles M tc, 4 ∣ p.1) ∧
      (tc % 8 = 1 →
        ((HANDLE_TABLE.handles M tc).map Prod.fst).Pairwise (· < ·)) := by
  constructor
  · intro p hp
    exact makeHandleArray_dvd M hes4 hes _ _ _ p hp
  · intro h1
    rw [HANDLE_TABLE.handles]
    have hmk : makeHandleArray M (tc % 8) (tc - tc % 8) 0
        = ((scanSlots M (tc - tc % 8)).enum).flatMap
            (fun jv => makeHandleArray M 0 jv.2 (0 + jv.1)) := by
      rw [h1]
      rfl
    rw [hmk, List.map_flatMap, List.flatMap_def, List.pairwise_flatten]
    constructor
    · intro l hl
      rcases List.mem_map.mp hl with ⟨jv, _, hjv⟩
      rw [← hjv]
      exact bottom_sorted M hes4 hes jv.2 (0 + jv.1)
    · rw [List.pairwise_map]
      apply List.Pairwise.imp ?impl (pairwise_enum_fst (scanSlots M (tc - tc % 8)))
      case impl =>
        intro a b hab x hx y hy
        rcases List.mem_map.mp hx with ⟨p, hp, hxp⟩
        rcases List.mem_map.mp hy with ⟨q, hq, hyq⟩
        have hb1 := bottom_bounds M hes4 hes a.2 (0 + a.1) p hp
        have hb2 := bottom_bounds M hes4 hes b.2 (0 + b.1) q hq
        have hmul : (0 + a.1 + 1) * (PAGE_SIZE / M.entrySize) * 4
            ≤ (0 + b.1) * (PAGE_SIZE / M.entrySize) * 4 :=
          Nat.mul_le_mul_right _ (Nat.mul_le_mul_right _ (by omega))
        rw [← hxp, ← hyq]
        omega

/-- Witness for `c2_handles_monotone` on the one-level table. -/
theorem c2_handles_monotone_witness :
    (∀ p ∈ HANDLE_TABLE.handles oneLevelMem 9, 4 ∣ p.1) ∧
      ((HANDLE_TABLE.handles oneLevelMem 9).map Prod.fst).Pairwise (· < ·) :=
  ⟨(c2_handles_monotone oneLevelMem 9 (by decide) (by decide) (by decide) (by decide)).1,
   (c2_handles_monotone oneLevelMem 9 (by decide) (by decide) (by decide) (by decide)).2 rfl⟩

/-- C2 (counterexample): the claim fails as stated for level counts above
one.  `twoLevelMem` encodes two levels (`0x10002 % 8 = 2`) and satisfies
all the size sanity bounds, yet the reconstructed handle values come out
as `[0, 8, 8]` — the value 8 repeats, because the first mid-level table
consumes bottom-table depths 0 and 1 while the second mid-level table is
entered with depth 1 again.  (All values are still divisible by 4.) -/
theorem c2_two_level_not_monotone :
    0 < twoLevelMem.addrSize ∧ 0 < twoLevelMem.entrySize ∧ 4 ∣ twoLevelMem.entrySize ∧
      0x10002 % 8 = 2 ∧
      (HANDLE_TABLE.handles twoLevelMem 0x10002).map Prod.fst = [0, 8, 8] ∧
      ¬ ((HANDLE_TABLE.handles twoLevelMem 0x10002).map Prod.fst).Pairwise (· < ·) := by
  refine ⟨by decide, by decide, by decide, by decide, rfl, ?_⟩
  rw [show (HANDLE_TABLE.handles twoLevelMem 0x10002).map Prod.fst = [0, 8, 8] from rfl]
  decide
